import Mathlib

/-!
Verification of the publicator scheduling core against its specification.

The development shallowly embeds the relevant Python functions:

* `services/content_plan_service.py` — `calculate_schedule_times` (the
  spec's `next_n_timestamps`);
* `database/managers/content_queue_manager.py` — `add_item`,
  `insert_after`, `delete_item`, `reorder_after_delete`,
  `recalculate_scheduled_at`, `get_next_ready`;
* `database/managers/auto_publish_manager.py` — `get_next_slot_time`;
* `services/auto_publish_service.py` — `_is_slot_now`,
  `_process_user_auto_publish` (one scheduler tick),
  `_publish_queue_item`, `_send_for_review`, `_handle_empty_queue`,
  `_auto_generate_batch`, `_send_review_reminders` (one escalator pass
  over one item).

Modelling conventions.  Instants are natural numbers of minutes since an
epoch that falls on a Monday 00:00 of the tenant's local timezone; the
timezone is modelled as a fixed UTC offset, so conversion local↔UTC is an
order-isomorphic constant shift and all order/count/distinctness facts
proved here about local instants hold verbatim for the UTC instants the
Python code returns (daylight-saving anomalies are outside this model).
A calendar date is `t / 1440` (days since the epoch), its weekday is
`date % 7` with Monday = 0, matching Python's `date.weekday()`; the time
of day is `t % 1440`.  Slot times `"HH:MM"` are modelled as hour/minute
pairs; the Python string comparison on zero-padded `"HH:MM"` strings
agrees with the numeric comparison used here.  Python's stable `sort` on
numeric keys is modelled by `List.insertionSort`, which computes the same
(unique, for lists of naturals) sorted permutation.  Database rows are
lists of records; SQL `ORDER BY` is an explicit sort, and SQL `NOW()` is
an explicitly passed `now`.  External collaborators (post store, channel,
billing, Telegram sends, GPT generation) are oracle fields of an
`Externals` record, per §6 of the spec.
-/

namespace Publicator

/-- One weekly slot `{day, "HH:MM"}` from the schedule JSON
(`content_plan_service.py`, `auto_publish_manager.py`). -/
structure Slot where
  day : Nat
  h : Nat
  m : Nat
deriving DecidableEq, Repr

/-- Minutes after local midnight encoded by the slot's `"HH:MM"` string. -/
def Slot.timeMin (s : Slot) : Nat := s.h * 60 + s.m

/-- Well-formedness of a slot time: Python's `datetime(..., h, m)` requires
`h < 24` and `m < 60`; malformed slots would raise there. -/
def Slot.wf (s : Slot) : Prop := s.h < 24 ∧ s.m < 60

instance (s : Slot) : Decidable s.wf := by unfold Slot.wf; infer_instance

/-- Sort key for `sorted(slots, key=lambda s: (s["day"], s["time"]))`:
with well-formed times, lexicographic (day, "HH:MM") order coincides with
the order of `day * 1440 + timeMin`. -/
def slotKey (s : Slot) : Nat := s.day * 1440 + s.timeMin

/-- The `sorted_slots` list of `calculate_schedule_times` and
`get_next_slot_time`. -/
def sortSlots (slots : List Slot) : List Slot :=
  List.insertionSort (fun a b => slotKey a ≤ slotKey b) slots

/-- The candidate instant computed in the slot loop:
`days_ahead = (slot_day - current_weekday) % 7`;
`slot_dt = datetime(current_date + days_ahead, h, m)`. -/
def slotDT (curDate : Nat) (s : Slot) : Nat :=
  (curDate + (s.day + 7 - curDate % 7) % 7) * 1440 + s.timeMin

/-- One pass of the inner `for slot in sorted_slots` loop of
`calculate_schedule_times`: skip candidates `≤ now`, append unseen
instants, break once `count` instants are collected. -/
def weekFold (count nowLocal curDate : Nat) : List Slot → List Nat → List Nat
  | [], acc => acc
  | s :: rest, acc =>
    let dt := slotDT curDate s
    if dt ≤ nowLocal then weekFold count nowLocal curDate rest acc
    else
      let acc2 := if dt ∈ acc then acc else acc ++ [dt]
      if count ≤ acc2.length then acc2
      else weekFold count nowLocal curDate rest acc2

/-- The outer `while len(result) < count and iterations < max_iterations`
loop of `calculate_schedule_times`; `fuel` is the remaining iteration
budget (`max_iterations = count * 4`), `curDate` advances by one week per
pass (`current_date += timedelta(weeks=1)`). -/
def calcLoop (sorted : List Slot) (count nowLocal : Nat) :
    Nat → Nat → List Nat → List Nat
  | 0, _, acc => acc
  | fuel + 1, curDate, acc =>
    if acc.length < count then
      calcLoop sorted count nowLocal fuel (curDate + 7)
        (weekFold count nowLocal curDate sorted acc)
    else acc

/-- Ascending sort of collected instants (`result.sort()`). -/
def sortNats (l : List Nat) : List Nat := List.insertionSort (· ≤ ·) l

/-- Embedding of `calculate_schedule_times(schedule, count, start_from)`
(`services/content_plan_service.py`, lines 41–85), the spec's
`next_n_timestamps`.  `nowLocal` is `start_from` converted to the
schedule's timezone and truncated to the minute (the code compares
whole-minute candidates against `now_local` with `<=`, which is exactly
the minute-floor comparison). -/
def calculate_schedule_times (slots : List Slot) (count : Nat) (nowLocal : Nat) :
    List Nat :=
  if slots.isEmpty then []
  else
    (sortNats (calcLoop (sortSlots slots) count nowLocal (count * 4)
      (nowLocal / 1440) [])).take count

/-- Inner slot scan of `AutoPublishManager.get_next_slot_time` for one
week offset: return the first strictly-future candidate in sorted-slot
order.  The code's same-day branch (`days_ahead == 0 and week_offset == 0`)
builds the candidate with `now_local.replace(hour=h, minute=m, ...)` and
the other branch with `datetime(...)`; under the fixed-offset timezone
model both equal `slotDT`. -/
def findSlotWeek (nowLocal curDate : Nat) : List Slot → Option Nat
  | [] => none
  | s :: rest =>
    let dt := slotDT curDate s
    if nowLocal < dt then some dt else findSlotWeek nowLocal curDate rest

/-- Embedding of `AutoPublishManager.get_next_slot_time`
(`database/managers/auto_publish_manager.py`, lines 213–252): scan the
current week, then the next (`for week_offset in range(2)`). -/
def get_next_slot_time (slots : List Slot) (nowLocal : Nat) : Option Nat :=
  if slots.isEmpty then none
  else
    match findSlotWeek nowLocal (nowLocal / 1440) (sortSlots slots) with
    | some dt => some dt
    | none => findSlotWeek nowLocal (nowLocal / 1440 + 7) (sortSlots slots)

/-! Lemmas about the slot-time calculator. -/

theorem slotDT_lower (curDate : Nat) (s : Slot) :
    curDate * 1440 ≤ slotDT curDate s := by
  unfold slotDT Slot.timeMin
  omega

theorem slotDT_upper (curDate : Nat) (s : Slot) (h : s.wf) :
    slotDT curDate s < (curDate + 7) * 1440 := by
  obtain ⟨h1, h2⟩ := h
  unfold slotDT Slot.timeMin
  omega

theorem weekFold_nil (count nowLocal curDate : Nat) (acc : List Nat) :
    weekFold count nowLocal curDate [] acc = acc := rfl

theorem weekFold_cons (count nowLocal curDate : Nat) (s : Slot)
    (rest : List Slot) (acc : List Nat) :
    weekFold count nowLocal curDate (s :: rest) acc =
      if slotDT curDate s ≤ nowLocal then
        weekFold count nowLocal curDate rest acc
      else
        (if count ≤
            (if slotDT curDate s ∈ acc then acc
             else acc ++ [slotDT curDate s]).length then
          (if slotDT curDate s ∈ acc then acc else acc ++ [slotDT curDate s])
        else
          weekFold count nowLocal curDate rest
            (if slotDT curDate s ∈ acc then acc
             else acc ++ [slotDT curDate s])) := rfl

theorem weekFold_length_mono (count nowLocal curDate : Nat) :
    ∀ (ss : List Slot) (acc : List Nat),
      acc.length ≤ (weekFold count nowLocal curDate ss acc).length := by
  intro ss
  induction ss with
  | nil => intro acc; rw [weekFold_nil]
  | cons s rest ih =>
    intro acc
    rw [weekFold_cons]
    by_cases h1 : slotDT curDate s ≤ nowLocal
    · rw [if_pos h1]; exact ih acc
    · rw [if_neg h1]
      by_cases h2 : slotDT curDate s ∈ acc
      · rw [if_pos h2]
        by_cases h3 : count ≤ acc.length
        · rw [if_pos h3]
        · rw [if_neg h3]; exact ih acc
      · rw [if_neg h2]
        by_cases h3 : count ≤ (acc ++ [slotDT curDate s]).length
        · rw [if_pos h3]; simp
        · rw [if_neg h3]
          exact Nat.le_trans (by simp) (ih (acc ++ [slotDT curDate s]))

theorem weekFold_length_le (count nowLocal curDate : Nat) :
    ∀ (ss : List Slot) (acc : List Nat), acc.length < count →
      (weekFold count nowLocal curDate ss acc).length ≤ count := by
  intro ss
  induction ss with
  | nil => intro acc h; rw [weekFold_nil]; exact Nat.le_of_lt h
  | cons s rest ih =>
    intro acc h
    rw [weekFold_cons]
    by_cases h1 : slotDT curDate s ≤ nowLocal
    · rw [if_pos h1]; exact ih acc h
    · rw [if_neg h1]
      by_cases h2 : slotDT curDate s ∈ acc
      · rw [if_pos h2]
        by_cases h3 : count ≤ acc.length
        · rw [if_pos h3]; exact Nat.le_of_lt h
        · rw [if_neg h3]; exact ih acc h
      · rw [if_neg h2]
        by_cases h3 : count ≤ (acc ++ [slotDT curDate s]).length
        · rw [if_pos h3]
          simp only [List.length_append, List.length_singleton]
          omega
        · rw [if_neg h3]
          apply ih
          simp only [List.length_append, List.length_singleton] at h3 ⊢
          omega

theorem weekFold_mem (count nowLocal curDate : Nat) :
    ∀ (ss : List Slot) (acc : List Nat) (x : Nat),
      x ∈ weekFold count nowLocal curDate ss acc →
      x ∈ acc ∨ (nowLocal < x ∧ ∃ s ∈ ss, x = slotDT curDate s) := by
  intro ss
  induction ss with
  | nil => intro acc x hx; rw [weekFold_nil] at hx; exact Or.inl hx
  | cons s rest ih =>
    intro acc x hx
    have step : ∀ y, y ∈ acc ++ [slotDT curDate s] → ¬ slotDT curDate s ≤ nowLocal →
        x = y → x ∈ acc ∨ (nowLocal < x ∧ ∃ t ∈ s :: rest, x = slotDT curDate t) := by
      intro y hy hlt he
      subst he
      rcases List.mem_append.mp hy with h | h
      · exact Or.inl h
      · have hx' := List.mem_singleton.mp h
        exact Or.inr ⟨by omega, s, List.mem_cons_self _ _, hx'⟩
    rw [weekFold_cons] at hx
    by_cases h1 : slotDT curDate s ≤ nowLocal
    · rw [if_pos h1] at hx
      rcases ih acc x hx with h | ⟨ha, s', hs', he⟩
      · exact Or.inl h
      · exact Or.inr ⟨ha, s', List.mem_cons_of_mem _ hs', he⟩
    · rw [if_neg h1] at hx
      by_cases h2 : slotDT curDate s ∈ acc
      · rw [if_pos h2] at hx
        by_cases h3 : count ≤ acc.length
        · rw [if_pos h3] at hx; exact Or.inl hx
        · rw [if_neg h3] at hx
          rcases ih acc x hx with h | ⟨ha, s', hs', he⟩
          · exact Or.inl h
          · exact Or.inr ⟨ha, s', List.mem_cons_of_mem _ hs', he⟩
      · rw [if_neg h2] at hx
        by_cases h3 : count ≤ (acc ++ [slotDT curDate s]).length
        · rw [if_pos h3] at hx
          exact step x hx h1 rfl
        · rw [if_neg h3] at hx
          rcases ih _ x hx with h | ⟨ha, s', hs', he⟩
          · exact step x h h1 rfl
          · exact Or.inr ⟨ha, s', List.mem_cons_of_mem _ hs', he⟩

theorem weekFold_nodup (count nowLocal curDate : Nat) :
    ∀ (ss : List Slot) (acc : List Nat), acc.Nodup →
      (weekFold count nowLocal curDate ss acc).Nodup := by
  intro ss
  induction ss with
  | nil => intro acc h; rwa [weekFold_nil]
  | cons s rest ih =>
    intro acc h
    rw [weekFold_cons]
    by_cases h1 : slotDT curDate s ≤ nowLocal
    · rw [if_pos h1]; exact ih acc h
    · rw [if_neg h1]
      by_cases h2 : slotDT curDate s ∈ acc
      · rw [if_pos h2]
        by_cases h3 : count ≤ acc.length
        · rw [if_pos h3]; exact h
        · rw [if_neg h3]; exact ih acc h
      · rw [if_neg h2]
        have h4 : (acc ++ [slotDT curDate s]).Nodup := by
          simp [List.nodup_append, h, h2]
        by_cases h3 : count ≤ (acc ++ [slotDT curDate s]).length
        · rw [if_pos h3]; exact h4
        · rw [if_neg h3]; exact ih _ h4

theorem weekFold_progress (count nowLocal curDate : Nat) (s : Slot)
    (rest : List Slot) (acc : List Nat)
    (hnow : nowLocal < curDate * 1440)
    (hacc : ∀ x ∈ acc, x < curDate * 1440) :
    acc.length + 1 ≤ (weekFold count nowLocal curDate (s :: rest) acc).length := by
  have hdt : curDate * 1440 ≤ slotDT curDate s := slotDT_lower curDate s
  have hfut : ¬ slotDT curDate s ≤ nowLocal := by omega
  have hnin : slotDT curDate s ∉ acc := by
    intro hmem
    have := hacc _ hmem
    omega
  rw [weekFold_cons, if_neg hfut, if_neg hnin]
  by_cases h3 : count ≤ (acc ++ [slotDT curDate s]).length
  · rw [if_pos h3]; simp
  · rw [if_neg h3]
    calc acc.length + 1 = (acc ++ [slotDT curDate s]).length := by simp
      _ ≤ _ := weekFold_length_mono count nowLocal curDate rest _

theorem calcLoop_zero (sorted : List Slot) (count nowLocal curDate : Nat)
    (acc : List Nat) :
    calcLoop sorted count nowLocal 0 curDate acc = acc := rfl

theorem calcLoop_succ (sorted : List Slot) (count nowLocal fuel curDate : Nat)
    (acc : List Nat) :
    calcLoop sorted count nowLocal (fuel + 1) curDate acc =
      if acc.length < count then
        calcLoop sorted count nowLocal fuel (curDate + 7)
          (weekFold count nowLocal curDate sorted acc)
      else acc := rfl

theorem calcLoop_mem (sorted : List Slot) (count nowLocal : Nat) :
    ∀ (fuel curDate : Nat) (acc : List Nat) (x : Nat),
      x ∈ calcLoop sorted count nowLocal fuel curDate acc →
      x ∈ acc ∨ nowLocal < x := by
  intro fuel
  induction fuel with
  | zero => intro curDate acc x hx; exact Or.inl hx
  | succ n ih =>
    intro curDate acc x hx
    rw [calcLoop_succ] at hx
    by_cases h : acc.length < count
    · rw [if_pos h] at hx
      rcases ih _ _ x hx with h' | h'
      · rcases weekFold_mem count nowLocal curDate sorted acc x h' with h'' | ⟨h'', _⟩
        · exact Or.inl h''
        · exact Or.inr h''
      · exact Or.inr h'
    · rw [if_neg h] at hx
      exact Or.inl hx

theorem calcLoop_nodup (sorted : List Slot) (count nowLocal : Nat) :
    ∀ (fuel curDate : Nat) (acc : List Nat), acc.Nodup →
      (calcLoop sorted count nowLocal fuel curDate acc).Nodup := by
  intro fuel
  induction fuel with
  | zero => intro curDate acc h; exact h
  | succ n ih =>
    intro curDate acc h
    rw [calcLoop_succ]
    by_cases hc : acc.length < count
    · rw [if_pos hc]
      exact ih _ _ (weekFold_nodup count nowLocal curDate sorted acc h)
    · rw [if_neg hc]; exact h

theorem calcLoop_length (sorted : List Slot) (count nowLocal : Nat)
    (hne : sorted ≠ []) (hwf : ∀ s ∈ sorted, s.wf) :
    ∀ (fuel curDate : Nat) (acc : List Nat),
      nowLocal < curDate * 1440 →
      (∀ x ∈ acc, x < curDate * 1440) →
      acc.length ≤ count → count ≤ acc.length + fuel →
      (calcLoop sorted count nowLocal fuel curDate acc).length = count := by
  intro fuel
  induction fuel with
  | zero =>
    intro curDate acc _ _ h1 h2
    rw [calcLoop_zero]
    omega
  | succ n ih =>
    intro curDate acc hnow hacc h1 h2
    rw [calcLoop_succ]
    by_cases hlt : acc.length < count
    · rw [if_pos hlt]
      obtain ⟨s, rest, rfl⟩ : ∃ s rest, sorted = s :: rest := by
        cases sorted with
        | nil => exact absurd rfl hne
        | cons a l => exact ⟨a, l, rfl⟩
      have hprog := weekFold_progress count nowLocal curDate s rest acc hnow hacc
      have hle := weekFold_length_le count nowLocal curDate (s :: rest) acc hlt
      apply ih
      · omega
      · intro x hx
        rcases weekFold_mem count nowLocal curDate (s :: rest) acc x hx with
          h | ⟨_, s', hs', rfl⟩
        · have := hacc x h
          omega
        · have := slotDT_upper curDate s' (hwf s' hs')
          omega
      · exact hle
      · omega
    · rw [if_neg hlt]
      omega

theorem sortSlots_perm (slots : List Slot) : (sortSlots slots).Perm slots :=
  List.perm_insertionSort (fun a b => slotKey a ≤ slotKey b) slots

theorem sortSlots_ne_nil (slots : List Slot) (h : slots ≠ []) :
    sortSlots slots ≠ [] := by
  intro hcon
  apply h
  have hlen := (sortSlots_perm slots).length_eq
  rw [hcon] at hlen
  exact List.eq_nil_of_length_eq_zero hlen.symm

theorem sortSlots_mem (slots : List Slot) (s : Slot) (h : s ∈ sortSlots slots) :
    s ∈ slots :=
  (sortSlots_perm slots).mem_iff.mp h

/-- Length, distinctness and strict-future facts about the raw collected
list, before the final ascending sort. -/
theorem calc_core_spec (slots : List Slot) (n nowLocal : Nat)
    (hne : slots ≠ []) (hwf : ∀ s ∈ slots, s.wf) (hn : 1 ≤ n) :
    (calcLoop (sortSlots slots) n nowLocal (n * 4) (nowLocal / 1440) []).length = n ∧
    (calcLoop (sortSlots slots) n nowLocal (n * 4) (nowLocal / 1440) []).Nodup ∧
    (∀ x ∈ calcLoop (sortSlots slots) n nowLocal (n * 4) (nowLocal / 1440) [],
      nowLocal < x) := by
  have hne' : sortSlots slots ≠ [] := sortSlots_ne_nil slots hne
  have hwf' : ∀ s ∈ sortSlots slots, s.wf := fun s hs =>
    hwf s (sortSlots_mem slots s hs)
  refine ⟨?_, ?_, ?_⟩
  · obtain ⟨f, hf⟩ : ∃ f, n * 4 = f + 1 := ⟨n * 4 - 1, by omega⟩
    rw [hf, calcLoop_succ, if_pos (by simpa using hn)]
    apply calcLoop_length (sortSlots slots) n nowLocal hne' hwf'
    · omega
    · intro x hx
      rcases weekFold_mem n nowLocal (nowLocal / 1440) (sortSlots slots) [] x hx with
        h | ⟨_, s', hs', rfl⟩
      · simp at h
      · have := slotDT_upper (nowLocal / 1440) s' (hwf' s' hs')
        omega
    · exact weekFold_length_le n nowLocal (nowLocal / 1440) (sortSlots slots) []
        (by simpa using hn)
    · have := weekFold_length_mono n nowLocal (nowLocal / 1440) (sortSlots slots) []
      omega
  · exact calcLoop_nodup (sortSlots slots) n nowLocal (n * 4) (nowLocal / 1440) []
      (by simp)
  · intro x hx
    rcases calcLoop_mem (sortSlots slots) n nowLocal (n * 4) (nowLocal / 1440) []
      x hx with h | h
    · simp at h
    · exact h

/-- C1.  For a non-empty well-formed slot list and `n ≥ 1`,
`calculate_schedule_times` returns exactly `n` instants, strictly
increasing (hence pairwise distinct even for duplicate slots), all
strictly after `now`; for an empty slot list it returns `[]`.
Determinism across repeated calls is definitional: the embedded function
is pure in `(slots, count, now)`, mirroring the code's injection of
`start_from` instead of reading a clock. -/
theorem claim_C1 (slots : List Slot) (n nowLocal : Nat)
    (hwf : ∀ s ∈ slots, s.wf) :
    (slots = [] → calculate_schedule_times slots n nowLocal = []) ∧
    (slots ≠ [] → 1 ≤ n →
      (calculate_schedule_times slots n nowLocal).length = n ∧
      List.Sorted (· < ·) (calculate_schedule_times slots n nowLocal) ∧
      (calculate_schedule_times slots n nowLocal).Nodup ∧
      (∀ t ∈ calculate_schedule_times slots n nowLocal, nowLocal < t)) := by
  constructor
  · intro h
    subst h
    rfl
  · intro hne hn
    obtain ⟨hRlen, hRnodup, hRmem⟩ := calc_core_spec slots n nowLocal hne hwf hn
    have hempty : ¬ (slots.isEmpty = true) := by
      cases slots with
      | nil => exact absurd rfl hne
      | cons a l => simp
    have hsortperm := List.perm_insertionSort (· ≤ ·)
      (calcLoop (sortSlots slots) n nowLocal (n * 4) (nowLocal / 1440) [])
    have hcalc : calculate_schedule_times slots n nowLocal =
        sortNats (calcLoop (sortSlots slots) n nowLocal (n * 4)
          (nowLocal / 1440) []) := by
      rw [calculate_schedule_times, if_neg hempty]
      apply List.take_of_length_le
      rw [sortNats, hsortperm.length_eq, hRlen]
    have hsorted : List.Sorted (· ≤ ·) (calculate_schedule_times slots n nowLocal) := by
      rw [hcalc]
      exact List.sorted_insertionSort _ _
    have hnodup : (calculate_schedule_times slots n nowLocal).Nodup := by
      rw [hcalc, sortNats]
      exact hsortperm.nodup_iff.mpr hRnodup
    refine ⟨?_, ?_, hnodup, ?_⟩
    · rw [hcalc, sortNats, hsortperm.length_eq, hRlen]
    · exact List.Sorted.lt_of_le hsorted hnodup
    · intro t ht
      rw [hcalc, sortNats] at ht
      exact hRmem t (hsortperm.mem_iff.mp ht)

/-- Witness for C1 at the spec's own scenario: slots Monday 10:00 and
Wednesday 18:00, `now` Monday 09:00 local, `n = 3`. -/
theorem claim_C1_witness :
    (∀ s ∈ [(⟨0, 10, 0⟩ : Slot), ⟨2, 18, 0⟩], s.wf) ∧
    (([(⟨0, 10, 0⟩ : Slot), ⟨2, 18, 0⟩] = [] →
      calculate_schedule_times [⟨0, 10, 0⟩, ⟨2, 18, 0⟩] 3 540 = []) ∧
    ([(⟨0, 10, 0⟩ : Slot), ⟨2, 18, 0⟩] ≠ [] → 1 ≤ 3 →
      (calculate_schedule_times [⟨0, 10, 0⟩, ⟨2, 18, 0⟩] 3 540).length = 3 ∧
      List.Sorted (· < ·) (calculate_schedule_times [⟨0, 10, 0⟩, ⟨2, 18, 0⟩] 3 540) ∧
      (calculate_schedule_times [⟨0, 10, 0⟩, ⟨2, 18, 0⟩] 3 540).Nodup ∧
      (∀ t ∈ calculate_schedule_times [⟨0, 10, 0⟩, ⟨2, 18, 0⟩] 3 540, 540 < t))) :=
  ⟨by decide, claim_C1 [⟨0, 10, 0⟩, ⟨2, 18, 0⟩] 3 540 (by decide)⟩

/-! Equivalence of the two next-slot computations (C9). -/

theorem findSlotWeek_nil (nowLocal curDate : Nat) :
    findSlotWeek nowLocal curDate [] = none := rfl

theorem findSlotWeek_cons (nowLocal curDate : Nat) (s : Slot) (rest : List Slot) :
    findSlotWeek nowLocal curDate (s :: rest) =
      if nowLocal < slotDT curDate s then some (slotDT curDate s)
      else findSlotWeek nowLocal curDate rest := rfl

/-- With `count = 1` and an empty accumulator, the inner week pass of
`calculate_schedule_times` collects exactly the first strictly-future
candidate in sorted-slot order — the same scan `get_next_slot_time`
performs for one week offset. -/
theorem weekFold_one_nil (nowLocal curDate : Nat) :
    ∀ ss : List Slot, weekFold 1 nowLocal curDate ss [] =
      (match findSlotWeek nowLocal curDate ss with
       | some t => [t]
       | none => []) := by
  intro ss
  induction ss with
  | nil => rfl
  | cons s rest ih =>
    rw [weekFold_cons, findSlotWeek_cons]
    by_cases h1 : slotDT curDate s ≤ nowLocal
    · rw [if_pos h1, if_neg (by omega), ih]
    · rw [if_neg h1, if_neg (List.not_mem_nil (slotDT curDate s)),
        if_pos (show nowLocal < slotDT curDate s by omega)]
      simp

theorem findSlotWeek_some_of (nowLocal curDate : Nat) (ss : List Slot)
    (hne : ss ≠ []) (hnow : nowLocal < curDate * 1440) :
    ∃ t, findSlotWeek nowLocal curDate ss = some t := by
  obtain ⟨s, rest, rfl⟩ : ∃ s rest, ss = s :: rest := by
    cases ss with
    | nil => exact absurd rfl hne
    | cons a l => exact ⟨a, l, rfl⟩
  have := slotDT_lower curDate s
  exact ⟨slotDT curDate s, by rw [findSlotWeek_cons, if_pos (by omega)]⟩

/-- C9.  `AutoPublishManager.get_next_slot_time` returns exactly the head
of `calculate_schedule_times(schedule, 1, now)` — the separate
implementation is equivalent to delegating to the slot calculator for one
timestamp — and returns `none` exactly when that list is empty. -/
theorem claim_C9 (slots : List Slot) (nowLocal : Nat) :
    get_next_slot_time slots nowLocal =
      (calculate_schedule_times slots 1 nowLocal).head? ∧
    (get_next_slot_time slots nowLocal = none ↔
      calculate_schedule_times slots 1 nowLocal = []) := by
  have main : get_next_slot_time slots nowLocal =
      (calculate_schedule_times slots 1 nowLocal).head? := by
    by_cases hemp : slots.isEmpty = true
    · rw [get_next_slot_time, if_pos hemp, calculate_schedule_times, if_pos hemp]
      rfl
    · have hne : slots ≠ [] := by
        cases slots with
        | nil => simp at hemp
        | cons a l => simp
      have hne' : sortSlots slots ≠ [] := sortSlots_ne_nil slots hne
      rw [get_next_slot_time, if_neg hemp, calculate_schedule_times, if_neg hemp]
      have h14 : (1 : Nat) * 4 = 3 + 1 := rfl
      cases hA : findSlotWeek nowLocal (nowLocal / 1440) (sortSlots slots) with
      | some t =>
        have hrun : calcLoop (sortSlots slots) 1 nowLocal (1 * 4)
            (nowLocal / 1440) [] = [t] := by
          rw [h14, calcLoop_succ, if_pos (by simp), weekFold_one_nil, hA,
            calcLoop_succ, if_neg (by simp)]
        rw [hrun]
        rfl
      | none =>
        have hacc : weekFold 1 nowLocal (nowLocal / 1440) (sortSlots slots) [] =
            [] := by
          rw [weekFold_one_nil, hA]
        obtain ⟨t', ht'⟩ := findSlotWeek_some_of nowLocal (nowLocal / 1440 + 7)
          (sortSlots slots) hne' (by omega)
        have hrun : calcLoop (sortSlots slots) 1 nowLocal (1 * 4)
            (nowLocal / 1440) [] = [t'] := by
          rw [h14, calcLoop_succ, if_pos (by simp), hacc,
            show (3 : Nat) = 2 + 1 from rfl, calcLoop_succ, if_pos (by simp),
            weekFold_one_nil, ht', calcLoop_succ, if_neg (by simp)]
        rw [hrun, ht']
        rfl
  exact ⟨main, by rw [main]; exact List.head?_eq_none_iff⟩

/-! Content queue model (`database/managers/content_queue_manager.py`).
A tenant's rows of the `content_queue` table are a list of records; ids
are unique (SQL primary key), `ORDER BY position` is an explicit sort,
and each SQL `UPDATE ... WHERE id = $1` is a map touching the rows with
that id. -/

/-- The `status` column. -/
inductive Status where
  | pending
  | ready
  | review
  | published
  | skipped
  | cancelled
deriving DecidableEq, Repr

/-- SQL `status IN ('pending', 'ready')` — the active statuses. -/
def Status.isActive : Status → Bool
  | .pending => true
  | .ready => true
  | _ => false

/-- One `content_queue` row.  `topic`/`format` are display-only strings
never read by the logic verified here and are omitted;
`review_reminders_sent` and `last_reminder_at` are the reminder columns
used by `_send_review_reminders`. -/
structure QItem where
  id : Nat
  position : Nat
  status : Status
  scheduled_at : Option Nat
  post_id : Option Nat
  review_reminders_sent : Nat
  last_reminder_at : Option Nat
deriving DecidableEq, Repr

/-- SQL `SELECT COALESCE(MAX(position), 0) ... WHERE user_id = $1`
(no status filter — taken over every row of the tenant). -/
def maxPosition (q : List QItem) : Nat :=
  (q.map (·.position)).foldr max 0

/-- Rows with an active status. -/
def activeItems (q : List QItem) : List QItem :=
  q.filter (·.status.isActive)

/-- SQL `ORDER BY position ASC` (insertion sort computes the same sorted
sequence; among equal positions SQL's order is unspecified and so is any
stable choice). -/
def sortByPosition (q : List QItem) : List QItem :=
  List.insertionSort (fun a b => a.position ≤ b.position) q

/-- Embedding of `ContentQueueManager.add_item` (lines 14–39): the new
row's position is `COALESCE(MAX(position), 0) + 1` over all rows, and the
row is inserted.  Returns the new table and the inserted row. -/
def add_item (q : List QItem) (newId : Nat) (st : Status)
    (sched : Option Nat) (postId : Option Nat) : List QItem × QItem :=
  let it : QItem :=
    { id := newId, position := maxPosition q + 1, status := st,
      scheduled_at := sched, post_id := postId,
      review_reminders_sent := 0, last_reminder_at := none }
  (q ++ [it], it)

/-- Embedding of `ContentQueueManager.insert_after` (lines 215–243):
`UPDATE ... SET position = position + 1 WHERE position > $2 AND status IN
('pending','ready')`, then insert at `after_position + 1`. -/
def insert_after (q : List QItem) (newId afterPos : Nat) (st : Status)
    (sched : Option Nat) (postId : Option Nat) : List QItem × QItem :=
  let shifted := q.map (fun it =>
    if it.status.isActive ∧ afterPos < it.position then
      { it with position := it.position + 1 }
    else it)
  let it : QItem :=
    { id := newId, position := afterPos + 1, status := st,
      scheduled_at := sched, post_id := postId,
      review_reminders_sent := 0, last_reminder_at := none }
  (shifted ++ [it], it)

/-- One `UPDATE content_queue SET position = $2 WHERE id = $1`. -/
def setPos (q : List QItem) (targetId pos : Nat) : List QItem :=
  q.map (fun it => if it.id = targetId then { it with position := pos } else it)

/-- The `for i, row in enumerate(rows, 1)` update loop of
`reorder_after_delete`: assign positions `pos0, pos0 + 1, ...` to the
listed ids in order. -/
def renumber (q : List QItem) (pos0 : Nat) : List Nat → List QItem
  | [] => q
  | i :: rest => renumber (setPos q i pos0) (pos0 + 1) rest

/-- Embedding of `ContentQueueManager.reorder_after_delete` (lines
199–213): select the active rows ordered by position and renumber them
`1, 2, 3, ...`. -/
def reorder_after_delete (q : List QItem) : List QItem :=
  renumber q 1 ((sortByPosition (activeItems q)).map (·.id))

/-- Embedding of `ContentQueueManager.delete_item` (lines 186–197):
look the row up, delete it, and — only if it existed — renumber the
tenant's active rows. -/
def delete_item (q : List QItem) (delId : Nat) : List QItem :=
  let q2 := q.filter (fun it => it.id ≠ delId)
  if q.any (fun it => it.id = delId) then reorder_after_delete q2 else q2

/-- One `UPDATE content_queue SET scheduled_at = $2 WHERE id = $1`
(`$2` may be NULL). -/
def setSched (q : List QItem) (targetId : Nat) (sched : Option Nat) :
    List QItem :=
  q.map (fun it =>
    if it.id = targetId then { it with scheduled_at := sched } else it)

/-- The `for i, row in enumerate(rows)` update loop of
`recalculate_scheduled_at`: the i-th listed id receives
`times[i] if i < len(times) else None`, i.e. `times[i]?`. -/
def assignTimes (q : List QItem) (times : List Nat) (idx : Nat) :
    List Nat → List QItem
  | [] => q
  | i :: rest => assignTimes (setSched q i times[idx]?) times (idx + 1) rest

/-- Embedding of `ContentQueueManager.recalculate_scheduled_at` (lines
245–268): read the active rows ordered by position; if there are none,
return; otherwise compute `calculate_schedule_times(schedule, len(rows))`
and assign the i-th time to the i-th row. -/
def recalculate_scheduled_at (q : List QItem) (slots : List Slot)
    (nowLocal : Nat) : List QItem :=
  let rows := sortByPosition (activeItems q)
  if rows.isEmpty then q
  else
    assignTimes q (calculate_schedule_times slots rows.length nowLocal) 0
      (rows.map (·.id))

/-- Embedding of `ContentQueueManager.get_next_ready` (lines 137–148):
the lowest-position row with `status = 'ready' AND scheduled_at <= NOW()`
(a NULL `scheduled_at` never satisfies the comparison). -/
def get_next_ready (q : List QItem) (now : Nat) : Option QItem :=
  (sortByPosition (q.filter (fun it =>
    it.status = Status.ready &&
      match it.scheduled_at with
      | some t => t ≤ now
      | none => false))).head?

/-- One `UPDATE content_queue SET status = $2 WHERE id = $1`
(`ContentQueueManager.update_status`). -/
def update_status (q : List QItem) (targetId : Nat) (st : Status) :
    List QItem :=
  q.map (fun it => if it.id = targetId then { it with status := st } else it)

/-! C3: position assigned by `add_item`. -/

theorem le_foldr_max (l : List Nat) (x : Nat) (h : x ∈ l) :
    x ≤ l.foldr max 0 := by
  induction l with
  | nil => simp at h
  | cons a rest ih =>
    rcases List.mem_cons.mp h with rfl | h'
    · simp
    · exact Nat.le_trans (ih h') (by simp)

theorem foldr_max_le (l : List Nat) (b : Nat) (h : ∀ x ∈ l, x ≤ b) :
    l.foldr max 0 ≤ b := by
  induction l with
  | nil => simp
  | cons a rest ih =>
    simp only [List.foldr_cons, max_le_iff]
    exact ⟨h a (List.mem_cons_self _ _),
      ih (fun x hx => h x (List.mem_cons_of_mem _ hx))⟩

theorem position_le_maxPosition (q : List QItem) (it : QItem) (h : it ∈ q) :
    it.position ≤ maxPosition q :=
  le_foldr_max _ _ (List.mem_map_of_mem (·.position) h)

/-- C3 counterexample.  A tenant whose only row is `published` at
position 1 and no active rows: `add_item` assigns position 2, while
`max(existing active positions) + 1 = 1` — a non-active row did influence
the assigned position, contradicting the claim as stated. -/
theorem claim_C3_cex :
    (add_item [⟨0, 1, .published, none, none, 0, none⟩] 1 .ready none none).2.position ≠
      maxPosition (activeItems [⟨0, 1, .published, none, none, 0, none⟩]) + 1 := by
  decide

/-- C3 as amended.  `add_item` assigns
`position = COALESCE(MAX(position), 0) + 1` taken over ALL of the
tenant's rows regardless of status (so non-active rows do influence it),
which is strictly above every existing row's position; it coincides with
`max(active positions) + 1` whenever every row is active. -/
theorem claim_C3 (q : List QItem) (newId : Nat) (st : Status)
    (sched postId : Option Nat) :
    (add_item q newId st sched postId).2.position = maxPosition q + 1 ∧
    (∀ it ∈ q, it.position < (add_item q newId st sched postId).2.position) ∧
    ((∀ it ∈ q, it.status.isActive = true) →
      (add_item q newId st sched postId).2.position =
        maxPosition (activeItems q) + 1) := by
  refine ⟨rfl, ?_, ?_⟩
  · intro it hit
    have := position_le_maxPosition q it hit
    show it.position < maxPosition q + 1
    omega
  · intro hall
    have : activeItems q = q := List.filter_eq_self.mpr hall
    rw [this]
    rfl

/-- Witness for C3's amended theorem on a concrete all-active queue. -/
theorem claim_C3_witness :
    (add_item [⟨0, 1, .ready, none, none, 0, none⟩] 1 .ready none none).2.position =
      maxPosition [⟨0, 1, .ready, none, none, 0, none⟩] + 1 ∧
    (add_item [⟨0, 1, .ready, none, none, 0, none⟩] 1 .ready none none).2.position =
      maxPosition (activeItems [⟨0, 1, .ready, none, none, 0, none⟩]) + 1 :=
  ⟨(claim_C3 [⟨0, 1, .ready, none, none, 0, none⟩] 1 .ready none none).1,
   (claim_C3 [⟨0, 1, .ready, none, none, 0, none⟩] 1 .ready none none).2.2
     (by decide)⟩

/-! C4: recalculation with zero slots. -/

theorem calc_empty_slots (n nowLocal : Nat) :
    calculate_schedule_times [] n nowLocal = [] := rfl

theorem assignTimes_nil_ids (q : List QItem) (times : List Nat) (idx : Nat) :
    assignTimes q times idx [] = q := rfl

theorem assignTimes_cons (q : List QItem) (times : List Nat) (idx i : Nat)
    (rest : List Nat) :
    assignTimes q times idx (i :: rest) =
      assignTimes (setSched q i times[idx]?) times (idx + 1) rest := rfl

/-- With an empty time list every visited id receives `NULL`:
the update loop is a map setting `scheduled_at := none` on the listed
ids. -/
theorem assignTimes_empty_times :
    ∀ (ids : List Nat) (idx : Nat) (q : List QItem),
      assignTimes q [] idx ids =
        q.map (fun it =>
          if it.id ∈ ids then { it with scheduled_at := none } else it) := by
  intro ids
  induction ids with
  | nil =>
    intro idx q
    simp [assignTimes_nil_ids]
  | cons i rest ih =>
    intro idx q
    rw [assignTimes_cons, ih, setSched, List.map_map]
    apply List.map_congr_left
    intro a _
    simp only [Function.comp_apply]
    by_cases hid : a.id = i
    · by_cases hmem : a.id ∈ rest
      · simp [hid, hid ▸ hmem]
      · simp [hid, hid ▸ hmem]
    · by_cases hmem : a.id ∈ rest
      · simp [hid, hmem]
      · simp [hid, hmem]

/-- C4 counterexample.  One active row with a set `scheduled_at`:
with zero slots `recalculate_scheduled_at` nulls its `scheduled_at`
(because `calculate_schedule_times` returns `[]` and every index falls
back to `None`), so the call is not a no-op. -/
theorem claim_C4_cex :
    recalculate_scheduled_at [⟨0, 1, .ready, some 5, none, 0, none⟩] [] 0 ≠
      [⟨0, 1, .ready, some 5, none, 0, none⟩] := by
  decide

/-- C4 as amended.  With zero slots, `recalculate_scheduled_at` sets
`scheduled_at := NULL` on every active row and leaves every other field
and every non-active row unchanged; it is a no-op exactly when the tenant
has no active rows (the early `if not rows: return`). -/
theorem claim_C4 (q : List QItem) (nowLocal : Nat)
    (hids : (q.map (·.id)).Nodup) :
    recalculate_scheduled_at q [] nowLocal =
      q.map (fun it =>
        if it.status.isActive then { it with scheduled_at := none } else it) ∧
    (activeItems q = [] → recalculate_scheduled_at q [] nowLocal = q) := by
  have hnoact : activeItems q = [] →
      recalculate_scheduled_at q [] nowLocal = q := by
    intro h
    have hrows : sortByPosition (activeItems q) = [] := by rw [h]; rfl
    rw [recalculate_scheduled_at, hrows]
    rfl
  refine ⟨?_, hnoact⟩
  by_cases hact : activeItems q = []
  · rw [hnoact hact]
    have hnone : ∀ it ∈ q, it.status.isActive = false := by
      intro it hit
      by_contra hc
      have : it ∈ activeItems q :=
        List.mem_filter.mpr ⟨hit, by simpa using hc⟩
      rw [hact] at this
      simp at this
    conv_lhs => rw [show q = q.map id from (List.map_id q).symm]
    apply List.map_congr_left
    intro a ha
    rw [hnone a ha]
    rfl
  · have hperm : (sortByPosition (activeItems q)).Perm (activeItems q) :=
      List.perm_insertionSort _ _
    have hrows : (sortByPosition (activeItems q)).isEmpty = false := by
      cases hs : sortByPosition (activeItems q) with
      | nil =>
        exact absurd (List.eq_nil_of_length_eq_zero
          (by rw [← hperm.length_eq, hs]; rfl)).symm (fun h => hact h.symm)
      | cons a l => rfl
    rw [recalculate_scheduled_at]
    simp only [hrows, Bool.false_eq_true, if_false, calc_empty_slots]
    rw [assignTimes_empty_times]
    apply List.map_congr_left
    intro a ha
    have hiff : (a.id ∈ (sortByPosition (activeItems q)).map (·.id)) ↔
        a.status.isActive = true := by
      constructor
      · intro hmem
        obtain ⟨b, hb, hba⟩ := List.mem_map.mp hmem
        have hbact : b ∈ activeItems q := hperm.mem_iff.mp hb
        have hbq : b ∈ q := List.mem_of_mem_filter hbact
        have : b = a := List.inj_on_of_nodup_map hids hbq ha hba
        rw [← this]
        exact (List.mem_filter.mp hbact).2
      · intro hmem
        exact List.mem_map.mpr
          ⟨a, hperm.mem_iff.mpr (List.mem_filter.mpr ⟨ha, hmem⟩), rfl⟩
    by_cases hA : a.status.isActive = true
    · rw [if_pos (hiff.mpr hA), if_pos hA]
    · rw [if_neg (fun h => hA (hiff.mp h)), if_neg hA]

/-- Witness for C4's amended theorem: one active and one published row. -/
theorem claim_C4_witness :
    recalculate_scheduled_at
        [⟨0, 1, .ready, some 5, none, 0, none⟩,
         ⟨1, 2, .published, some 9, none, 0, none⟩] [] 3 =
      ([⟨0, 1, .ready, some 5, none, 0, none⟩,
        ⟨1, 2, .published, some 9, none, 0, none⟩] : List QItem).map (fun it =>
        if it.status.isActive then { it with scheduled_at := none } else it) :=
  (claim_C4 [⟨0, 1, .ready, some 5, none, 0, none⟩,
    ⟨1, 2, .published, some 9, none, 0, none⟩] 3 (by decide)).1

/-! C2: position density under append / insert-after / delete. -/

/-- Positions of the active rows. -/
def activePositions (q : List QItem) : List Nat :=
  (activeItems q).map (·.position)

/-- The three structural queue operations of the claim, with the
arguments the handlers supply (`status` defaults to `'ready'` in the
source; both active statuses are covered). -/
inductive QOp where
  | add (st : Status) (sched : Option Nat)
  | insertAfter (afterPos : Nat) (st : Status) (sched : Option Nat)
  | del (id : Nat)
deriving DecidableEq, Repr

/-- A tenant's table plus the id the SQL sequence would hand out next. -/
structure QState where
  items : List QItem
  nextId : Nat
deriving DecidableEq, Repr

def initState : QState := ⟨[], 0⟩

def applyOp (s : QState) : QOp → QState
  | .add st sched =>
    ⟨(add_item s.items s.nextId st sched none).1, s.nextId + 1⟩
  | .insertAfter p st sched =>
    ⟨(insert_after s.items s.nextId p st sched none).1, s.nextId + 1⟩
  | .del i => ⟨delete_item s.items i, s.nextId⟩

def applyOps (s : QState) (ops : List QOp) : QState := ops.foldl applyOp s

/-- Validity of one operation against the current state: inserted rows
carry an active status and `insert_after` refers to an existing active
position (or 0, the front).  This matches the handlers, which only pass
`after_position = item["position"]` of a displayed active row. -/
def QOp.validB (s : QState) : QOp → Bool
  | .add st _ => st.isActive
  | .insertAfter p st _ => st.isActive && decide (p ≤ (activeItems s.items).length)
  | .del _ => true

def validOps : QState → List QOp → Bool
  | _, [] => true
  | s, op :: rest => op.validB s && validOps (applyOp s op) rest

/-- Index of the first occurrence of `x` (proof-side helper used to
characterise the sequential renumbering loop). -/
def idxOfId : List Nat → Nat → Option Nat
  | [], _ => none
  | i :: rest, x => if x = i then some 0 else (idxOfId rest x).map (· + 1)

/-- The state invariant: every row is active (only active statuses enter
through valid operations), row ids are unique and below the id counter,
and the active positions are a permutation of `1..N`. -/
def Inv (s : QState) : Prop :=
  (∀ it ∈ s.items, it.status.isActive = true) ∧
  (s.items.map (·.id)).Nodup ∧
  (∀ it ∈ s.items, it.id < s.nextId) ∧
  (activePositions s.items).Perm
    (List.range' 1 (activeItems s.items).length)

theorem activeItems_append (q r : List QItem) :
    activeItems (q ++ r) = activeItems q ++ activeItems r := by
  simp [activeItems]

theorem range'_map_shift (p k : Nat) :
    (List.range' (1 + p) k).map (fun x => if p < x then x + 1 else x) =
      List.range' (p + 2) k := by
  have hcongr : ∀ x ∈ List.range' (1 + p) k,
      (if p < x then x + 1 else x) = 1 + x := by
    intro x hx
    rcases List.mem_range'.mp hx with ⟨i, _, rfl⟩
    rw [if_pos (by omega)]
    omega
  rw [List.map_congr_left hcongr, List.map_add_range']
  congr 1
  omega

theorem range'_map_keep (p : Nat) :
    (List.range' 1 p).map (fun x => if p < x then x + 1 else x) =
      List.range' 1 p := by
  have hcongr : ∀ x ∈ List.range' 1 p,
      (if p < x then x + 1 else x) = x := by
    intro x hx
    rcases List.mem_range'.mp hx with ⟨i, hi, rfl⟩
    rw [if_neg (by omega)]
  rw [List.map_congr_left hcongr]
  exact List.map_id _

/-- Shifting `1..N` above `p` by one and adding `p + 1` yields a
permutation of `1..N+1`. -/
theorem shift_range_perm (p N : Nat) (hp : p ≤ N) :
    ((List.range' 1 N).map (fun x => if p < x then x + 1 else x) ++
      [p + 1]).Perm (List.range' 1 (N + 1)) := by
  have h1 : List.range' 1 p ++ List.range' (1 + p) (N - p) =
      List.range' 1 N := by
    have h := List.range'_append 1 p (N - p) 1
    rw [show 1 + 1 * p = 1 + p by omega] at h
    rw [h]
    congr 1
    omega
  have hrw : (List.range' 1 N).map (fun x => if p < x then x + 1 else x) ++
      [p + 1] =
      List.range' 1 p ++ (List.range' (p + 2) (N - p) ++ [p + 1]) := by
    rw [← h1, List.map_append, range'_map_keep, range'_map_shift,
      List.append_assoc]
  rw [hrw]
  apply (List.Perm.append_left (List.range' 1 p)
    (@List.perm_append_comm Nat (List.range' (p + 2) (N - p))
      [p + 1])).trans
  rw [List.singleton_append,
    show List.range' (p + 2) (N - p) = List.range' (p + 1 + 1) (N - p) from rfl,
    ← List.range'_succ]
  have hfin : List.range' 1 p ++ List.range' (p + 1) ((N - p) + 1) =
      List.range' 1 (N + 1) := by
    have h := List.range'_append 1 p ((N - p) + 1) 1
    rw [show 1 + 1 * p = p + 1 by omega] at h
    rw [h]
    congr 1
    omega
  rw [hfin]

theorem idxOfId_nil (x : Nat) : idxOfId [] x = none := rfl

theorem idxOfId_cons (i : Nat) (rest : List Nat) (x : Nat) :
    idxOfId (i :: rest) x =
      if x = i then some 0 else (idxOfId rest x).map (· + 1) := rfl

theorem idxOfId_eq_none (rest : List Nat) (x : Nat) (h : x ∉ rest) :
    idxOfId rest x = none := by
  induction rest with
  | nil => rfl
  | cons i r ih =>
    rw [idxOfId_cons,
      if_neg (fun he => h (by rw [he]; exact List.mem_cons_self i r)),
      ih (fun hm => h (List.mem_cons_of_mem i hm))]
    rfl

theorem renumber_nil (q : List QItem) (pos0 : Nat) :
    renumber q pos0 [] = q := rfl

theorem renumber_cons (q : List QItem) (pos0 i : Nat) (rest : List Nat) :
    renumber q pos0 (i :: rest) =
      renumber (setPos q i pos0) (pos0 + 1) rest := rfl

/-- The sequential renumbering loop, applied to distinct ids, acts as one
map: the row whose id sits at index `k` of `ids` ends at position
`pos0 + k`; other rows are untouched. -/
theorem renumber_char :
    ∀ (ids : List Nat) (pos0 : Nat) (q : List QItem), ids.Nodup →
      renumber q pos0 ids = q.map (fun it =>
        match idxOfId ids it.id with
        | some k => { it with position := pos0 + k }
        | none => it) := by
  intro ids
  induction ids with
  | nil =>
    intro pos0 q _
    rw [renumber_nil]
    have hcongr : ∀ a ∈ q,
        (fun it => match idxOfId [] it.id with
          | some k => { it with position := pos0 + k }
          | none => it) a = id a := fun a _ => rfl
    rw [List.map_congr_left hcongr, List.map_id]
  | cons i rest ih =>
    intro pos0 q hnd
    have hi : i ∉ rest := (List.nodup_cons.mp hnd).1
    have hrest : rest.Nodup := (List.nodup_cons.mp hnd).2
    rw [renumber_cons, ih (pos0 + 1) _ hrest, setPos, List.map_map]
    apply List.map_congr_left
    intro a _
    simp only [Function.comp_apply]
    by_cases hid : a.id = i
    · rw [if_pos hid]
      have hnone : idxOfId rest ({ a with position := pos0 } : QItem).id =
          none := by
        show idxOfId rest a.id = none
        rw [hid]
        exact idxOfId_eq_none rest i hi
      rw [hnone, idxOfId_cons, if_pos hid]
      rfl
    · rw [if_neg hid, idxOfId_cons, if_neg hid]
      cases hk : idxOfId rest a.id with
      | none => rfl
      | some k =>
        show ({ a with position := pos0 + 1 + k } : QItem) =
          { a with position := pos0 + (k + 1) }
        rw [show pos0 + 1 + k = pos0 + (k + 1) by omega]

/-- Mapping each row of a list with distinct ids to the index of its own
id yields consecutive positions. -/
theorem map_idx_positions :
    ∀ (L : List QItem) (p : Nat), ((L.map (·.id)).Nodup) →
      L.map (fun it =>
        match idxOfId (L.map (·.id)) it.id with
        | some k => p + k
        | none => it.position) = List.range' p L.length := by
  intro L
  induction L with
  | nil => intro p _; rfl
  | cons a R ih =>
    intro p hnd
    rw [List.map_cons] at hnd
    have hna : a.id ∉ R.map (·.id) := (List.nodup_cons.mp hnd).1
    have hndR : (R.map (·.id)).Nodup := (List.nodup_cons.mp hnd).2
    have hids : (a :: R).map (·.id) = a.id :: R.map (·.id) := rfl
    rw [List.map_cons, hids]
    have hhead : (match idxOfId (a.id :: R.map (·.id)) a.id with
        | some k => p + k
        | none => a.position) = p := by
      rw [idxOfId_cons, if_pos rfl]
      rfl
    rw [hhead]
    have htail : ∀ b ∈ R,
        (match idxOfId (a.id :: R.map (·.id)) b.id with
          | some k => p + k
          | none => b.position) =
        (match idxOfId (R.map (·.id)) b.id with
          | some k => (p + 1) + k
          | none => b.position) := by
      intro b hb
      have hne : b.id ≠ a.id := by
        intro he
        exact hna (he ▸ List.mem_map_of_mem (·.id) hb)
      rw [idxOfId_cons, if_neg hne]
      cases hk : idxOfId (R.map (·.id)) b.id with
      | none => rfl
      | some k =>
        show p + (k + 1) = p + 1 + k
        omega
    rw [List.map_congr_left htail, ih (p + 1) hndR, List.length_cons,
      List.range'_succ]

theorem activeItems_map_pres (f : QItem → QItem)
    (hf : ∀ it, (f it).status = it.status) (q : List QItem) :
    activeItems (q.map f) = (activeItems q).map f := by
  unfold activeItems
  rw [List.filter_map]
  congr 1
  apply List.filter_congr
  intro a _
  show ((f a).status.isActive) = (a.status.isActive)
  rw [hf]

theorem sorted_active_ids_nodup (q : List QItem)
    (hids : (q.map (·.id)).Nodup) :
    ((sortByPosition (activeItems q)).map (·.id)).Nodup := by
  have hsub : List.Sublist ((activeItems q).map (·.id)) (q.map (·.id)) :=
    (List.filter_sublist q).map (·.id)
  have hact : ((activeItems q).map (·.id)).Nodup := hsub.nodup hids
  have hperm : (sortByPosition (activeItems q)).Perm (activeItems q) :=
    List.perm_insertionSort _ _
  exact ((hperm.map (·.id)).nodup_iff).mpr hact

/-- The id-indexed map applied by `reorder_after_delete` (derived form of
the renumbering loop; see `renumber_char`). -/
def reorderFn (q : List QItem) (it : QItem) : QItem :=
  match idxOfId ((sortByPosition (activeItems q)).map (·.id)) it.id with
  | some k => { it with position := 1 + k }
  | none => it

theorem reorderFn_status (q : List QItem) (it : QItem) :
    (reorderFn q it).status = it.status := by
  unfold reorderFn
  cases h : idxOfId ((sortByPosition (activeItems q)).map (·.id)) it.id <;>
    rfl

theorem reorderFn_id (q : List QItem) (it : QItem) :
    (reorderFn q it).id = it.id := by
  unfold reorderFn
  cases h : idxOfId ((sortByPosition (activeItems q)).map (·.id)) it.id <;>
    rfl

theorem reorder_eq_map (q : List QItem)
    (hids : (q.map (·.id)).Nodup) :
    reorder_after_delete q = q.map (reorderFn q) := by
  rw [reorder_after_delete,
    renumber_char _ 1 q (sorted_active_ids_nodup q hids)]
  rfl

/-- After `reorder_after_delete`, regardless of the previous positions,
the active rows' positions are a permutation of `1..N` (N = number of
active rows); ids and statuses are untouched. -/
theorem reorder_dense (q : List QItem) (hids : (q.map (·.id)).Nodup) :
    (activePositions (reorder_after_delete q)).Perm
      (List.range' 1 (activeItems (reorder_after_delete q)).length) := by
  rw [reorder_eq_map q hids]
  rw [activePositions, activeItems_map_pres _ (reorderFn_status q) q,
    List.map_map]
  have hperm : (sortByPosition (activeItems q)).Perm (activeItems q) :=
    List.perm_insertionSort _ _
  have hcongr : ∀ b ∈ activeItems q,
      ((·.position) ∘ reorderFn q) b =
      (fun it =>
        match idxOfId ((sortByPosition (activeItems q)).map (·.id)) it.id with
        | some k => 1 + k
        | none => it.position) b := by
    intro b _
    simp only [Function.comp_apply]
    unfold reorderFn
    cases h : idxOfId ((sortByPosition (activeItems q)).map (·.id)) b.id <;>
      rfl
  rw [List.map_congr_left hcongr, List.length_map,
    hperm.symm.length_eq]
  apply (hperm.symm.map _).trans
  rw [map_idx_positions (sortByPosition (activeItems q)) 1
    (sorted_active_ids_nodup q hids)]

theorem maxPosition_dense (q : List QItem)
    (hall : ∀ it ∈ q, it.status.isActive = true)
    (hdense : (activePositions q).Perm
      (List.range' 1 (activeItems q).length)) :
    maxPosition q = (activeItems q).length := by
  have hq : activeItems q = q := List.filter_eq_self.mpr hall
  have hpos : activePositions q = q.map (·.position) := by
    rw [activePositions, hq]
  have hle : maxPosition q ≤ (activeItems q).length := by
    show (q.map (·.position)).foldr max 0 ≤ _
    apply foldr_max_le
    intro x hx
    have hx' : x ∈ List.range' 1 (activeItems q).length :=
      hdense.mem_iff.mp (by rw [hpos]; exact hx)
    rcases List.mem_range'.mp hx' with ⟨i, hi, rfl⟩
    omega
  have hge : (activeItems q).length ≤ maxPosition q := by
    rcases Nat.eq_zero_or_pos (activeItems q).length with h0 | h1
    · omega
    · have hmem : (activeItems q).length ∈
          List.range' 1 (activeItems q).length :=
        List.mem_range'.mpr ⟨(activeItems q).length - 1, by omega, by omega⟩
      have hmem' := hdense.mem_iff.mpr hmem
      rw [hpos] at hmem'
      exact le_foldr_max _ _ hmem'
  omega

theorem Inv_add (s : QState) (st : Status) (sched : Option Nat)
    (h : Inv s) (hst : st.isActive = true) :
    Inv ⟨(add_item s.items s.nextId st sched none).1, s.nextId + 1⟩ := by
  obtain ⟨hall, hnd, hbound, hdense⟩ := h
  have hN := maxPosition_dense s.items hall hdense
  show Inv ⟨s.items ++
    [⟨s.nextId, maxPosition s.items + 1, st, sched, none, 0, none⟩],
    s.nextId + 1⟩
  have hnew : activeItems
      [(⟨s.nextId, maxPosition s.items + 1, st, sched, none, 0, none⟩ :
        QItem)] =
      [⟨s.nextId, maxPosition s.items + 1, st, sched, none, 0, none⟩] := by
    simp [activeItems, hst]
  refine ⟨?_, ?_, ?_, ?_⟩
  · intro it hit
    rcases List.mem_append.mp hit with h1 | h1
    · exact hall it h1
    · rw [List.mem_singleton.mp h1]
      exact hst
  · show ((s.items ++
      [(⟨s.nextId, maxPosition s.items + 1, st, sched, none, 0, none⟩ :
        QItem)]).map (·.id)).Nodup
    rw [List.map_append, List.nodup_append]
    refine ⟨hnd, List.nodup_singleton _, ?_⟩
    intro x hx hmem
    rcases List.mem_map.mp hx with ⟨a, ha, rfl⟩
    have := hbound a ha
    have hx' := List.mem_singleton.mp hmem
    simp only [List.map_cons, List.map_nil, List.mem_singleton] at hx'
    omega
  · intro it hit
    show it.id < s.nextId + 1
    rcases List.mem_append.mp hit with h1 | h1
    · have := hbound it h1
      omega
    · rw [List.mem_singleton.mp h1]
      show s.nextId < s.nextId + 1
      omega
  · show (activePositions (s.items ++
      [(⟨s.nextId, maxPosition s.items + 1, st, sched, none, 0, none⟩ :
        QItem)])).Perm
      (List.range' 1 (activeItems (s.items ++
        [(⟨s.nextId, maxPosition s.items + 1, st, sched, none, 0,
          none⟩ : QItem)])).length)
    rw [activePositions, activeItems_append, hnew, List.map_append,
      List.length_append, List.length_singleton]
    have h2 : List.range' 1 ((activeItems s.items).length + 1) =
        List.range' 1 (activeItems s.items).length ++
          [maxPosition s.items + 1] := by
      rw [List.range'_concat]
      congr 1
      rw [hN]
      congr 1
      omega
    rw [h2]
    exact List.Perm.append_right _ hdense

theorem Inv_insert (s : QState) (p : Nat) (st : Status) (sched : Option Nat)
    (h : Inv s) (hst : st.isActive = true)
    (hp : p ≤ (activeItems s.items).length) :
    Inv ⟨(insert_after s.items s.nextId p st sched none).1, s.nextId + 1⟩ := by
  obtain ⟨hall, hnd, hbound, hdense⟩ := h
  show Inv ⟨s.items.map (fun it =>
      if it.status.isActive ∧ p < it.position then
        { it with position := it.position + 1 } else it) ++
    [⟨s.nextId, p + 1, st, sched, none, 0, none⟩], s.nextId + 1⟩
  have hfid : ∀ it : QItem,
      ((if it.status.isActive ∧ p < it.position then
        { it with position := it.position + 1 } else it) : QItem).id = it.id := by
    intro it
    split <;> rfl
  have hfst : ∀ it : QItem,
      ((if it.status.isActive ∧ p < it.position then
        { it with position := it.position + 1 } else it) : QItem).status =
        it.status := by
    intro it
    split <;> rfl
  have hids : (s.items.map (fun it =>
      if it.status.isActive ∧ p < it.position then
        { it with position := it.position + 1 } else it)).map (·.id) =
      s.items.map (·.id) := by
    rw [List.map_map]
    apply List.map_congr_left
    intro a _
    exact hfid a
  have hnew : activeItems
      [(⟨s.nextId, p + 1, st, sched, none, 0, none⟩ : QItem)] =
      [⟨s.nextId, p + 1, st, sched, none, 0, none⟩] := by
    simp [activeItems, hst]
  refine ⟨?_, ?_, ?_, ?_⟩
  · intro it hit
    rcases List.mem_append.mp hit with h1 | h1
    · rcases List.mem_map.mp h1 with ⟨a, ha, rfl⟩
      rw [hfst a]
      exact hall a ha
    · rw [List.mem_singleton.mp h1]
      exact hst
  · show ((s.items.map (fun it =>
      if it.status.isActive ∧ p < it.position then
        { it with position := it.position + 1 } else it) ++
      [(⟨s.nextId, p + 1, st, sched, none, 0, none⟩ : QItem)]).map
        (·.id)).Nodup
    rw [List.map_append, hids, List.nodup_append]
    refine ⟨hnd, List.nodup_singleton _, ?_⟩
    intro x hx hmem
    rcases List.mem_map.mp hx with ⟨a, ha, rfl⟩
    have := hbound a ha
    have hx' := List.mem_singleton.mp hmem
    simp only [List.map_cons, List.map_nil, List.mem_singleton] at hx'
    omega
  · intro it hit
    show it.id < s.nextId + 1
    rcases List.mem_append.mp hit with h1 | h1
    · rcases List.mem_map.mp h1 with ⟨a, ha, rfl⟩
      rw [hfid a]
      have := hbound a ha
      omega
    · rw [List.mem_singleton.mp h1]
      show s.nextId < s.nextId + 1
      omega
  · show (activePositions (s.items.map (fun it =>
      if it.status.isActive ∧ p < it.position then
        { it with position := it.position + 1 } else it) ++
      [(⟨s.nextId, p + 1, st, sched, none, 0, none⟩ : QItem)])).Perm
      (List.range' 1 (activeItems (s.items.map (fun it =>
        if it.status.isActive ∧ p < it.position then
          { it with position := it.position + 1 } else it) ++
        [(⟨s.nextId, p + 1, st, sched, none, 0, none⟩ : QItem)])).length)
    rw [activePositions, activeItems_append, hnew,
      activeItems_map_pres _ hfst, List.map_append, List.map_map,
      List.length_append, List.length_singleton, List.length_map]
    have hpt : ∀ it ∈ activeItems s.items,
        ((·.position) ∘ (fun it =>
          if it.status.isActive ∧ p < it.position then
            { it with position := it.position + 1 } else it)) it =
        ((fun x => if p < x then x + 1 else x) ∘ (·.position)) it := by
      intro it hit
      have hact : it.status.isActive = true :=
        (List.mem_filter.mp hit).2
      simp only [Function.comp_apply]
      by_cases hlt : p < it.position
      · rw [if_pos ⟨hact, hlt⟩, if_pos hlt]
      · rw [if_neg (fun hc => hlt hc.2), if_neg hlt]
    rw [List.map_congr_left hpt, ← List.map_map]
    have hperm1 : ((activePositions s.items).map
        (fun x => if p < x then x + 1 else x) ++ [p + 1]).Perm
          ((List.range' 1 (activeItems s.items).length).map
            (fun x => if p < x then x + 1 else x) ++ [p + 1]) :=
      List.Perm.append_right _ (hdense.map _)
    exact hperm1.trans (shift_range_perm p (activeItems s.items).length hp)

theorem Inv_del (s : QState) (i : Nat) (h : Inv s) :
    Inv ⟨delete_item s.items i, s.nextId⟩ := by
  obtain ⟨hall, hnd, hbound, hdense⟩ := h
  have hsub : List.Sublist (s.items.filter (fun it => it.id ≠ i)) s.items :=
    List.filter_sublist _
  have hall2 : ∀ it ∈ s.items.filter (fun it => it.id ≠ i),
      it.status.isActive = true :=
    fun it hit => hall it (List.mem_of_mem_filter hit)
  have hnd2 : ((s.items.filter (fun it => it.id ≠ i)).map (·.id)).Nodup :=
    (hsub.map (·.id)).nodup hnd
  have hbound2 : ∀ it ∈ s.items.filter (fun it => it.id ≠ i),
      it.id < s.nextId :=
    fun it hit => hbound it (List.mem_of_mem_filter hit)
  rw [delete_item]
  by_cases hany : s.items.any (fun it => it.id = i) = true
  · rw [if_pos hany]
    have hmap := reorder_eq_map (s.items.filter (fun it => it.id ≠ i)) hnd2
    refine ⟨?_, ?_, ?_, ?_⟩
    · intro it hit
      rw [hmap] at hit
      rcases List.mem_map.mp hit with ⟨a, ha, rfl⟩
      rw [reorderFn_status]
      exact hall2 a ha
    · show ((reorder_after_delete _).map (·.id)).Nodup
      rw [hmap, List.map_map]
      have : (s.items.filter (fun it => it.id ≠ i)).map
          ((·.id) ∘ reorderFn (s.items.filter (fun it => it.id ≠ i))) =
          (s.items.filter (fun it => it.id ≠ i)).map (·.id) := by
        apply List.map_congr_left
        intro a _
        exact reorderFn_id _ a
      rw [this]
      exact hnd2
    · intro it hit
      rw [hmap] at hit
      rcases List.mem_map.mp hit with ⟨a, ha, rfl⟩
      rw [reorderFn_id]
      exact hbound2 a ha
    · exact reorder_dense _ hnd2
  · rw [if_neg hany]
    have heq : s.items.filter (fun it => it.id ≠ i) = s.items := by
      apply List.filter_eq_self.mpr
      intro a ha
      simp only [ne_eq, decide_not, Bool.not_eq_true']
      by_contra hc
      apply hany
      rw [List.any_eq_true]
      refine ⟨a, ha, ?_⟩
      simpa using hc
    rw [heq]
    exact ⟨hall, hnd, hbound, hdense⟩

theorem Inv_applyOp (s : QState) (op : QOp) (h : Inv s)
    (hv : op.validB s = true) : Inv (applyOp s op) := by
  cases op with
  | add st sched =>
    exact Inv_add s st sched h (by simpa [QOp.validB] using hv)
  | insertAfter p st sched =>
    simp only [QOp.validB, Bool.and_eq_true, decide_eq_true_eq] at hv
    exact Inv_insert s p st sched h hv.1 hv.2
  | del i => exact Inv_del s i h

theorem Inv_applyOps :
    ∀ (ops : List QOp) (s : QState), Inv s → validOps s ops = true →
      Inv (applyOps s ops) := by
  intro ops
  induction ops with
  | nil => intro s h _; exact h
  | cons op rest ih =>
    intro s h hv
    rw [validOps, Bool.and_eq_true] at hv
    exact ih (applyOp s op) (Inv_applyOp s op h hv.1) hv.2

theorem Inv_init : Inv initState := by
  refine ⟨?_, ?_, ?_, ?_⟩ <;> simp [initState, activePositions, activeItems]

/-- C2 counterexample.  The claim quantifies over any operation sequence;
`insert_after` with an out-of-range `after_position` (here 5 on an empty
queue) creates a single active row at position 6, so the active positions
are `[6]`, not `1..1` — the literal claim fails. -/
theorem claim_C2_cex :
    ¬ (activePositions
        (applyOps initState [QOp.insertAfter 5 .ready none]).items).Perm
        (List.range' 1
          (activeItems
            (applyOps initState [QOp.insertAfter 5 .ready none]).items).length) := by
  decide

/-- C2 as amended.  Starting from an empty queue, after any sequence of
`add_item` / `insert_after` / `delete_item` operations in which every
inserted row carries an active status (the source's default `'ready'`, or
`'pending'`) and every `insert_after` names an existing active position
(or 0) — which is how the handlers invoke it — the active rows' positions
are exactly a permutation of the dense range `1..N` with no gaps and no
duplicates. -/
theorem claim_C2 (ops : List QOp) (hv : validOps initState ops = true) :
    (activePositions (applyOps initState ops).items).Perm
      (List.range' 1 (activeItems (applyOps initState ops).items).length) :=
  (Inv_applyOps ops initState Inv_init hv).2.2.2

/-- Witness for C2: append, append, insert after position 1, then delete
the first row. -/
theorem claim_C2_witness :
    validOps initState
      [QOp.add .ready none, QOp.add .pending none,
       QOp.insertAfter 1 .ready none, QOp.del 0] = true ∧
    (activePositions (applyOps initState
      [QOp.add .ready none, QOp.add .pending none,
       QOp.insertAfter 1 .ready none, QOp.del 0]).items).Perm
      (List.range' 1 (activeItems (applyOps initState
        [QOp.add .ready none, QOp.add .pending none,
         QOp.insertAfter 1 .ready none, QOp.del 0]).items).length) :=
  ⟨by decide,
   claim_C2
     [QOp.add .ready none, QOp.add .pending none,
      QOp.insertAfter 1 .ready none, QOp.del 0] (by decide)⟩

/-! Scheduler model (`services/auto_publish_service.py`).  One tick of
`_process_user_auto_publish` for one tenant, with the external
collaborators (post store, channel, billing, Telegram, GPT) as oracles. -/

inductive Moderation where
  | auto
  | review
deriving DecidableEq, Repr

inductive EmptyPolicy where
  | pause
  | autoGenerate
deriving DecidableEq, Repr

/-- The tenant's `auto_publish_settings` row as the tick reads it
(`chat_id`/`plan` are delivery details folded into the notify events). -/
structure APSettings where
  isActive : Bool
  slots : List Slot
  moderation : Moderation
  onEmpty : EmptyPolicy
  isGenerating : Bool
  lastProcessedAt : Option Nat
deriving DecidableEq, Repr

/-- Observable calls into the external interfaces, in program order. -/
inductive Event where
  | publishAttempt (queueId : Nat)
  | notifyPublished (queueId : Nat)
  | notifyPublishError (queueId : Nat)
  | notifyLimitReached
  | notifyQueueEmpty
  | notifyNoTokens
  | notifyGenerated
  | reviewPrompt (queueId : Nat)
  | reminderSent (queueId : Nat)
  | notifySkippedAfterReminders (queueId : Nat)
deriving DecidableEq, Repr

/-- Oracle answers of the external collaborators for one tick:
`posts` is the set of existing post ids (`PostManager.get_post`),
`channelExists` (`ChannelManager.get_channel`), `canPost`
(`UserManager.check_post_limit`), `publishOk` (`publish_post` result),
`hasAgent`/`hasTokens` (`AgentManager`/`UserManager`), `genThrows`
(whether `generate_content_plan` raises), `genEffect` (the queue rows a
successful generation leaves behind — content generation itself is
outside this core, spec §1/§6), `sendOk` (whether the Telegram reminder
send succeeds). -/
structure Externals where
  posts : List Nat
  channelExists : Bool
  canPost : Bool
  publishOk : Bool
  hasAgent : Bool
  hasTokens : Bool
  genThrows : Bool
  genEffect : List QItem → List QItem
  sendOk : Bool

/-- Embedding of `_is_slot_now` (lines 48–65): a slot fires when the
tenant-local weekday and `"HH:MM"` wall time both match exactly. -/
def is_slot_now (slots : List Slot) (nowLocal : Nat) : Bool :=
  slots.any (fun s =>
    s.day == (nowLocal / 1440) % 7 && s.timeMin == nowLocal % 1440)

/-- The throttle of step 3 (lines 104–113): skip when less than
`MIN_PROCESS_INTERVAL` (5 minutes) has passed since `last_processed_at`
(no recorded instant means no throttle). -/
def throttled (st : APSettings) (now : Nat) : Bool :=
  match st.lastProcessedAt with
  | some t => now - t < 5
  | none => false

/-- Embedding of `_send_for_review` (lines 174–223): set the item to
`review` recording `last_reminder_at = NOW()` (`set_review`), then send
the approval prompt if the post exists; a missing `post_id` or post
record returns silently after the status write. -/
def send_for_review (q : List QItem) (item : QItem) (ex : Externals)
    (now : Nat) : List QItem × List Event :=
  let q2 := q.map (fun it =>
    if it.id = item.id then
      { it with status := Status.review, last_reminder_at := some now }
    else it)
  match item.post_id with
  | none => (q2, [])
  | some pid =>
    if pid ∈ ex.posts then (q2, [Event.reviewPrompt item.id]) else (q2, [])

/-- Embedding of `_publish_queue_item` (lines 226–304): skip items whose
post is gone, bail out without a channel, stop the policy at the monthly
limit, otherwise call the external publish interface and either advance
the item to `published` (with a success notification) or leave it
untouched and notify the error. -/
def publish_queue_item (st : APSettings) (q : List QItem) (item : QItem)
    (ex : Externals) : APSettings × List QItem × List Event :=
  match item.post_id with
  | none => (st, update_status q item.id Status.skipped, [])
  | some pid =>
    if pid ∉ ex.posts then (st, update_status q item.id Status.skipped, [])
    else if ¬ ex.channelExists then (st, q, [])
    else if ¬ ex.canPost then
      ({ st with isActive := false }, q, [Event.notifyLimitReached])
    else if ex.publishOk then
      (st, update_status q item.id Status.published,
        [Event.publishAttempt item.id, Event.notifyPublished item.id])
    else
      (st, q, [Event.publishAttempt item.id, Event.notifyPublishError item.id])

/-- Embedding of `_auto_generate_batch` (lines 391–447): guarded by
`is_generating`, agent presence and token balance; sets `is_generating`,
runs the external generation, and clears the flag in a `finally`, so the
flag is clear on both the success and the throw path. -/
def auto_generate_batch (st : APSettings) (q : List QItem) (ex : Externals) :
    APSettings × List QItem × List Event :=
  if st.isGenerating then (st, q, [])
  else if ¬ ex.hasAgent then (st, q, [])
  else if ¬ ex.hasTokens then
    ({ st with isActive := false }, q, [Event.notifyNoTokens])
  else
    let st1 := { st with isGenerating := true }
    if ex.genThrows then ({ st1 with isGenerating := false }, q, [])
    else ({ st1 with isGenerating := false }, ex.genEffect q,
      [Event.notifyGenerated])

/-- Embedding of `_handle_empty_queue` (lines 158–171): `pause`
deactivates the policy and notifies the tenant; `auto_generate` runs the
generation batch. -/
def handle_empty_queue (st : APSettings) (q : List QItem) (ex : Externals) :
    APSettings × List QItem × List Event :=
  match st.onEmpty with
  | .pause => ({ st with isActive := false }, q, [Event.notifyQueueEmpty])
  | .autoGenerate => auto_generate_batch st q ex

/-- Embedding of one tick of `_process_user_auto_publish` (lines 83–155)
for one tenant: concurrency guard (`alreadyProcessing` models membership
in the in-memory `_processing_users` set), slot match, throttle, review
gate, generation gate, then the empty-queue branch or the
moderation-dependent dispatch; `last_processed_at` is written after the
empty branch and after a dispatch, not on the early exits. -/
def tick (st : APSettings) (q : List QItem) (ex : Externals)
    (alreadyProcessing : Bool) (now : Nat) :
    APSettings × List QItem × List Event :=
  if alreadyProcessing then (st, q, [])
  else if ¬ is_slot_now st.slots now then (st, q, [])
  else if throttled st now then (st, q, [])
  else if q.any (fun it => it.status == Status.review) then (st, q, [])
  else if st.isGenerating then (st, q, [])
  else
    match get_next_ready q now with
    | none =>
      let r := handle_empty_queue st q ex
      ({ r.1 with lastProcessedAt := some now }, r.2.1, r.2.2)
    | some item =>
      if st.moderation == Moderation.auto then
        let r := publish_queue_item st q item ex
        ({ r.1 with lastProcessedAt := some now }, r.2.1, r.2.2)
      else
        let r := send_for_review q item ex now
        ({ st with lastProcessedAt := some now }, r.1, r.2)

/-- Embedding of one pass of `_send_review_reminders` (lines 307–388)
over one item (the loop treats items independently): an item that has
already received `MAX_REVIEW_REMINDERS` (3) reminders is skipped and the
tenant notified, regardless of timing; otherwise a reminder is due only
when `last_reminder_at` is recorded and at least
`REVIEW_REMINDER_INTERVAL` (30 minutes) old, the item has a `post_id`
whose post exists, and the send succeeds, in which case the counter and
`last_reminder_at` advance (`increment_reminder`). -/
def escalator_step (ex : Externals) (now : Nat) (it : QItem) :
    QItem × List Event :=
  if it.status ≠ Status.review then (it, [])
  else if 3 ≤ it.review_reminders_sent then
    ({ it with status := Status.skipped },
      [Event.notifySkippedAfterReminders it.id])
  else
    match it.last_reminder_at with
    | none => (it, [])
    | some t =>
      if now - t < 30 then (it, [])
      else
        match it.post_id with
        | none => (it, [])
        | some pid =>
          if pid ∉ ex.posts then (it, [])
          else if ex.sendOk then
            ({ it with
                review_reminders_sent := it.review_reminders_sent + 1,
                last_reminder_at := some now }, [Event.reminderSent it.id])
          else (it, [])

/-- C5.  If any of the tenant's queue items is in `review` when the tick
starts, the tick dispatches nothing at all: the settings (including
`last_processed_at`) and the queue are unchanged and no external call is
made — in particular nothing is published, nothing is moved to `review`,
and the empty-queue branch is not taken. -/
theorem claim_C5 (st : APSettings) (q : List QItem) (ex : Externals)
    (ap : Bool) (now : Nat)
    (h : ∃ it ∈ q, it.status = Status.review) :
    tick st q ex ap now = (st, q, []) := by
  have hany : q.any (fun it => it.status == Status.review) = true := by
    rw [List.any_eq_true]
    obtain ⟨it, hit, hrev⟩ := h
    exact ⟨it, hit, by rw [hrev]; rfl⟩
  rw [tick]
  by_cases h1 : ap = true
  · rw [if_pos h1]
  · rw [if_neg h1]
    by_cases h2 : ¬ is_slot_now st.slots now = true
    · rw [if_pos h2]
    · rw [if_neg h2]
      by_cases h3 : throttled st now = true
      · rw [if_pos h3]
      · rw [if_neg h3, if_pos hany]

/-- Witness for C5: a queue holding one `review` item blocks a tick that
would otherwise dispatch. -/
theorem claim_C5_witness :
    (∃ it ∈ [(⟨0, 1, .review, none, none, 0, none⟩ : QItem)],
      it.status = Status.review) ∧
    tick ⟨true, [⟨0, 0, 0⟩], .auto, .pause, false, none⟩
        [⟨0, 1, .review, none, none, 0, none⟩]
        ⟨[], true, true, true, true, true, false, id, true⟩ false 0 =
      (⟨true, [⟨0, 0, 0⟩], .auto, .pause, false, none⟩,
        [⟨0, 1, .review, none, none, 0, none⟩], []) :=
  ⟨by decide,
   claim_C5 ⟨true, [⟨0, 0, 0⟩], .auto, .pause, false, none⟩
     [⟨0, 1, .review, none, none, 0, none⟩]
     ⟨[], true, true, true, true, true, false, id, true⟩ false 0 (by decide)⟩

/-- C7.  With moderation `auto` and a failing external publish call, the
tick leaves the queue — in particular the dispatched item's status —
completely unchanged, emits exactly one publish attempt followed by one
error notification to the tenant, and still records
`last_processed_at = now` (the throttle then prevents a second dispatch
before the next slot); no second publish attempt occurs within the
tick. -/
theorem claim_C7 (st : APSettings) (q : List QItem) (ex : Externals)
    (now : Nat) (item : QItem) (pid : Nat)
    (hslot : is_slot_now st.slots now = true)
    (hthr : throttled st now = false)
    (hrev : ∀ it ∈ q, it.status ≠ Status.review)
    (hgen : st.isGenerating = false)
    (hnext : get_next_ready q now = some item)
    (hmod : st.moderation = Moderation.auto)
    (hpid : item.post_id = some pid)
    (hmem : pid ∈ ex.posts)
    (hch : ex.channelExists = true)
    (hcan : ex.canPost = true)
    (hpub : ex.publishOk = false) :
    tick st q ex false now =
      ({ st with lastProcessedAt := some now }, q,
        [Event.publishAttempt item.id, Event.notifyPublishError item.id]) := by
  have hanyf : ¬ (q.any (fun it => it.status == Status.review) = true) := by
    rw [List.any_eq_true]
    rintro ⟨it, hit, hb⟩
    exact hrev it hit (by simpa using hb)
  have hpq : publish_queue_item st q item ex =
      (st, q, [Event.publishAttempt item.id,
        Event.notifyPublishError item.id]) := by
    simp only [publish_queue_item, hpid]
    rw [if_neg (not_not_intro hmem), if_neg (by rw [hch]; exact not_not_intro rfl),
      if_neg (by rw [hcan]; exact not_not_intro rfl), if_neg (by rw [hpub]; simp)]
  rw [tick, if_neg (by simp), if_neg (by rw [hslot]; exact not_not_intro rfl),
    if_neg (by rw [hthr]; simp), if_neg hanyf, if_neg (by rw [hgen]; simp)]
  simp only [hnext]
  rw [show (st.moderation == Moderation.auto) = true by rw [hmod]; rfl]
  rw [if_pos rfl, hpq]

/-- Witness for C7 at a concrete tenant state. -/
theorem claim_C7_witness :
    tick ⟨true, [⟨0, 0, 10⟩], .auto, .pause, false, none⟩
        [⟨0, 1, .ready, some 5, some 42, 0, none⟩]
        ⟨[42], true, true, false, true, true, false, id, true⟩ false 10 =
      (⟨true, [⟨0, 0, 10⟩], .auto, .pause, false, some 10⟩,
        [⟨0, 1, .ready, some 5, some 42, 0, none⟩],
        [Event.publishAttempt 0, Event.notifyPublishError 0]) :=
  claim_C7 ⟨true, [⟨0, 0, 10⟩], .auto, .pause, false, none⟩
    [⟨0, 1, .ready, some 5, some 42, 0, none⟩]
    ⟨[42], true, true, false, true, true, false, id, true⟩ 10
    ⟨0, 1, .ready, some 5, some 42, 0, none⟩ 42
    (by decide) (by decide) (by decide) (by decide) (by decide) (by decide)
    (by decide) (by decide) (by decide) (by decide) (by decide)

/-- C10.  When the dispatched item under `auto` moderation has no
`post_id` or its post record no longer exists, the tick marks exactly
that item `skipped` (all other rows untouched), makes no publish call and
sends no notification; `last_processed_at` is still recorded. -/
theorem claim_C10 (st : APSettings) (q : List QItem) (ex : Externals)
    (now : Nat) (item : QItem)
    (hslot : is_slot_now st.slots now = true)
    (hthr : throttled st now = false)
    (hrev : ∀ it ∈ q, it.status ≠ Status.review)
    (hgen : st.isGenerating = false)
    (hnext : get_next_ready q now = some item)
    (hmod : st.moderation = Moderation.auto)
    (hbad : item.post_id = none ∨
      ∃ pid, item.post_id = some pid ∧ pid ∉ ex.posts) :
    tick st q ex false now =
      ({ st with lastProcessedAt := some now },
        update_status q item.id Status.skipped, []) := by
  have hanyf : ¬ (q.any (fun it => it.status == Status.review) = true) := by
    rw [List.any_eq_true]
    rintro ⟨it, hit, hb⟩
    exact hrev it hit (by simpa using hb)
  have hpq : publish_queue_item st q item ex =
      (st, update_status q item.id Status.skipped, []) := by
    rcases hbad with hnone | ⟨pid, hpid, hnmem⟩
    · simp only [publish_queue_item, hnone]
    · simp only [publish_queue_item, hpid]
      rw [if_pos hnmem]
  rw [tick, if_neg (by simp), if_neg (by rw [hslot]; exact not_not_intro rfl),
    if_neg (by rw [hthr]; simp), if_neg hanyf, if_neg (by rw [hgen]; simp)]
  simp only [hnext]
  rw [show (st.moderation == Moderation.auto) = true by rw [hmod]; rfl]
  rw [if_pos rfl, hpq]

/-- Witness for C10: a ready item whose `post_id` is NULL is skipped
silently. -/
theorem claim_C10_witness :
    tick ⟨true, [⟨0, 0, 10⟩], .auto, .pause, false, none⟩
        [⟨0, 1, .ready, some 5, none, 0, none⟩]
        ⟨[], true, true, true, true, true, false, id, true⟩ false 10 =
      (⟨true, [⟨0, 0, 10⟩], .auto, .pause, false, some 10⟩,
        update_status [⟨0, 1, .ready, some 5, none, 0, none⟩] 0 Status.skipped,
        []) :=
  claim_C10 ⟨true, [⟨0, 0, 10⟩], .auto, .pause, false, none⟩
    [⟨0, 1, .ready, some 5, none, 0, none⟩]
    ⟨[], true, true, true, true, true, false, id, true⟩ 10
    ⟨0, 1, .ready, some 5, none, 0, none⟩
    (by decide) (by decide) (by decide) (by decide) (by decide) (by decide)
    (Or.inl (by decide))

/-- C8.  `_auto_generate_batch` never leaves `is_generating` raised: on
the early-return paths the flag is untouched, and on the path that sets
it the `finally` clears it whether the generation call succeeds or
throws — so the flag after the call always equals the flag before it, and
a tick that found it `false` can never wedge it `true`. -/
theorem claim_C8 (st : APSettings) (q : List QItem) (ex : Externals) :
    (auto_generate_batch st q ex).1.isGenerating = st.isGenerating := by
  rw [auto_generate_batch]
  by_cases h1 : st.isGenerating = true
  · rw [if_pos h1]
  · rw [if_neg h1]
    have h1' : st.isGenerating = false := by
      cases hb : st.isGenerating
      · rfl
      · exact absurd hb h1
    by_cases h2 : ¬ ex.hasAgent = true
    · rw [if_pos h2]
    · rw [if_neg h2]
      by_cases h3 : ¬ ex.hasTokens = true
      · rw [if_pos h3]
      · rw [if_neg h3]
        by_cases h4 : ex.genThrows = true
        · rw [if_pos h4, h1']
        · rw [if_neg h4, h1']

/-- An escalator pass over one item either leaves it untouched, or
auto-skips it (exactly when it is a `review` item with 3 or more
reminders already sent), or sends one more reminder (only to a `review`
item with fewer than 3 reminders sent). -/
theorem escalator_step_cases (ex : Externals) (now : Nat) (it : QItem) :
    escalator_step ex now it = (it, []) ∨
    (it.status = Status.review ∧ 3 ≤ it.review_reminders_sent ∧
      escalator_step ex now it =
        ({ it with status := Status.skipped },
          [Event.notifySkippedAfterReminders it.id])) ∨
    (it.status = Status.review ∧ it.review_reminders_sent < 3 ∧
      escalator_step ex now it =
        ({ it with
            review_reminders_sent := it.review_reminders_sent + 1,
            last_reminder_at := some now },
          [Event.reminderSent it.id])) := by
  by_cases h1 : it.status ≠ Status.review
  · left
    rw [escalator_step, if_pos h1]
  · have hrev := not_not.mp h1
    by_cases h2 : 3 ≤ it.review_reminders_sent
    · right; left
      exact ⟨hrev, h2, by rw [escalator_step, if_neg h1, if_pos h2]⟩
    · cases hlr : it.last_reminder_at with
      | none =>
        left
        rw [escalator_step, if_neg h1, if_neg h2]
        simp only [hlr]
      | some t =>
        by_cases h3 : now - t < 30
        · left
          rw [escalator_step, if_neg h1, if_neg h2]
          simp only [hlr]
          rw [if_pos h3]
        · cases hpid : it.post_id with
          | none =>
            left
            rw [escalator_step, if_neg h1, if_neg h2]
            simp only [hlr]
            rw [if_neg h3]
            simp only [hpid]
          | some pid =>
            by_cases h4 : pid ∉ ex.posts
            · left
              rw [escalator_step, if_neg h1, if_neg h2]
              simp only [hlr]
              rw [if_neg h3]
              simp only [hpid]
              rw [if_pos h4]
            · by_cases h5 : ex.sendOk = true
              · right; right
                refine ⟨hrev, by omega, ?_⟩
                rw [escalator_step, if_neg h1, if_neg h2]
                simp only [hlr]
                rw [if_neg h3]
                simp only [hpid]
                rw [if_neg h4, if_pos h5]
              · left
                rw [escalator_step, if_neg h1, if_neg h2]
                simp only [hlr]
                rw [if_neg h3]
                simp only [hpid]
                rw [if_neg h4, if_neg h5]

/-- C6 counterexample.  A `review` item with no `post_id` (which
`_send_for_review` can produce, since it sets the status before checking
`post_id`) never has a reminder sent (`if not post_id ... continue`), so
its counter never reaches `max_reminders` and it is never auto-skipped:
a single escalator pass arbitrarily far in the future (here
`now = 10^6`) leaves it in `review` untouched, so it blocks the dispatch
gate indefinitely, contradicting the claim. -/
theorem claim_C6_cex :
    escalator_step ⟨[], true, true, true, true, true, false, id, true⟩
        1000000 ⟨0, 1, .review, none, none, 0, some 0⟩ =
      (⟨0, 1, .review, none, none, 0, some 0⟩, []) ∧
    (⟨0, 1, .review, none, none, 0, some 0⟩ : QItem).status =
      Status.review := by
  constructor
  · decide
  · decide

/-- C6 as amended.  An item is auto-skipped (with a notification) exactly
when it is in `review` with at least `max_reminders = 3` reminder sends
recorded — so never before the third send, and on the very next escalator
pass after the third send, regardless of elapsed time; each pass sends at
most one reminder, only to a `review` item with fewer than 3 sends, and a
send advances the counter by exactly one while keeping the item in
`review`.  However an item whose reminder cannot be delivered (missing
`post_id`, missing post record, missing `last_reminder_at`, or failing
sends) accrues no sends and is never auto-skipped, so such an item can
remain in `review` indefinitely (see the counterexample). -/
theorem claim_C6 (ex : Externals) (now : Nat) (it : QItem) :
    ((escalator_step ex now it).1.status = Status.skipped ∧
        it.status ≠ Status.skipped →
      it.status = Status.review ∧ 3 ≤ it.review_reminders_sent) ∧
    (it.status = Status.review → 3 ≤ it.review_reminders_sent →
      escalator_step ex now it =
        ({ it with status := Status.skipped },
          [Event.notifySkippedAfterReminders it.id])) ∧
    (Event.reminderSent it.id ∈ (escalator_step ex now it).2 →
      it.review_reminders_sent < 3 ∧
      (escalator_step ex now it).1.review_reminders_sent =
        it.review_reminders_sent + 1 ∧
      (escalator_step ex now it).1.status = Status.review) := by
  refine ⟨?_, ?_, ?_⟩
  · rintro ⟨hsk, hns⟩
    rcases escalator_step_cases ex now it with h | ⟨hrev, h3, heq⟩ |
      ⟨hrev, _, heq⟩
    · rw [h] at hsk
      exact absurd hsk hns
    · exact ⟨hrev, h3⟩
    · rw [heq] at hsk
      rw [show ({ it with
          review_reminders_sent := it.review_reminders_sent + 1,
          last_reminder_at := some now } : QItem).status = it.status from rfl,
        hrev] at hsk
      exact absurd hsk (by intro hcon; cases hcon)
  · intro hrev h3
    rw [escalator_step, if_neg (not_not_intro hrev), if_pos h3]
  · intro hmem
    rcases escalator_step_cases ex now it with h | ⟨hrev, h3, heq⟩ |
      ⟨hrev, hlt, heq⟩
    · rw [h] at hmem
      exact absurd hmem (List.not_mem_nil _)
    · rw [heq] at hmem
      have := List.mem_singleton.mp hmem
      cases this
    · rw [heq]
      exact ⟨hlt, rfl, hrev⟩

/-- Witness for C6: a review item with exactly three reminders sent is
skipped on the next pass. -/
theorem claim_C6_witness :
    escalator_step ⟨[5], true, true, true, true, true, false, id, true⟩
        100 ⟨7, 1, .review, none, some 5, 3, some 10⟩ =
      (⟨7, 1, .skipped, none, some 5, 3, some 10⟩,
        [Event.notifySkippedAfterReminders 7]) :=
  (claim_C6 ⟨[5], true, true, true, true, true, false, id, true⟩ 100
    ⟨7, 1, .review, none, some 5, 3, some 10⟩).2.1 (by decide) (by decide)

end Publicator
